import Mathlib

/-!
Shallow embedding of two Yul optimiser steps of this repository:
`libyul/optimiser/UnusedFunctionArgumentPruner.cpp` and
`libyul/optimiser/StackToMemoryMover.cpp`.

The AST mirrors `libyul/AsmData.h` (source locations and debug data are
dropped: no claim mentions them, and the passes only copy them around).
Helper components that the two translation units use but whose sources are
not part of this repository slice (`NameDispenser`, `NameCollector`,
`NameDisplacer`, `ASTModifier`/`ASTWalker`, `util::toCompactHexWithPrefix`,
the dialect descriptor) are modelled from the specification, as indicated
by their doc comments.
-/

/-- Interned Yul name with value equality (`YulString`). -/
abbrev YulString := String

/-- `LiteralKind` of `AsmData.h`. -/
inductive LiteralKind where
  | number
  | boolean
  | stringLit
deriving DecidableEq

/-- `TypedName` of `AsmData.h`: a declared name together with its type. -/
structure TypedName where
  name : YulString
  type : YulString
deriving DecidableEq, Inhabited

/-- Yul `Expression` variant of `AsmData.h`: `Identifier`, `Literal` and
`FunctionCall` (the function name of a call is an `Identifier`, carried
here as the bare name). -/
inductive Expression where
  | ident (name : YulString)
  | lit (kind : LiteralKind) (value : YulString)
  | call (functionName : YulString) (arguments : List Expression)

/-- Yul `Statement` variant of `AsmData.h`.  `Switch` is omitted: neither
pass treats it specially and the remaining block-bearing kinds (`If`,
`ForLoop`, nested `Block`) already exercise every traversal path the two
passes have. -/
inductive Statement where
  | exprStmt (expression : Expression)
  | assign (variableNames : List YulString) (value : Expression)
  | varDecl (vars : List TypedName) (value : Option Expression)
  | funcDef (name : YulString) (parameters returnVariables : List TypedName)
      (body : List Statement)
  | ifStmt (condition : Expression) (body : List Statement)
  | forLoop (pre : List Statement) (condition : Expression)
      (post body : List Statement)
  | blockStmt (statements : List Statement)
  | breakStmt
  | continueStmt
  | leaveStmt

/-- A Yul `Block` is its ordered statement sequence. -/
abbrev Block := List Statement

/-- Largest length of a string in the list (0 for the empty list). -/
def maxStrLength (l : List String) : Nat :=
  l.foldr (fun s acc => max s.length acc) 0

theorem le_maxStrLength {l : List String} {s : String} (h : s ∈ l) :
    s.length ≤ maxStrLength l := by
  induction l with
  | nil => cases h
  | cons a as ih =>
      rcases List.mem_cons.mp h with rfl | h'
      · exact le_max_left _ _
      · exact le_trans (ih h') (le_max_right _ _)

/-- Modelled from the spec: the Symbol Dispenser (§4.1, `NameDispenser`,
whose source is outside this repository slice).  It tracks the set of names
used so far and a counter, and `newName` returns the seed itself when it is
still free, otherwise the seed plus a numeric suffix obtained by
incrementing the counter — deterministic, and distinct from every used
name.  The suffix search is a bounded scan (with an unreachable
length-based fallback) so that the function is total. -/
structure NameDispenser where
  usedNames : List YulString
  counter : Nat

/-- Candidate name `seed_i` tried by the dispenser. -/
def NameDispenser.candidate (hint : YulString) (i : Nat) : YulString :=
  hint ++ "_" ++ Nat.repr i

/-- Modelled from the spec: `NameDispenser::newName` — return the hint when
it is legal (nonempty and unused), else the first legal `hint_i` for
`i = counter + 1, counter + 2, …`; the returned name is recorded as used. -/
def NameDispenser.newName (d : NameDispenser) (hint : YulString) :
    YulString × NameDispenser :=
  if h : hint ≠ "" ∧ hint ∉ d.usedNames then
    (hint, ⟨hint :: d.usedNames, d.counter⟩)
  else
    match (List.range (d.usedNames.length + 1)).find?
        (fun i => decide (NameDispenser.candidate hint (d.counter + 1 + i) ∉ d.usedNames)) with
    | some i =>
        let n := NameDispenser.candidate hint (d.counter + 1 + i)
        (n, ⟨n :: d.usedNames, d.counter + 1 + i⟩)
    | none =>
        (hint ++ "_" ++ String.mk (List.replicate (maxStrLength d.usedNames + 1) '1'),
         ⟨(hint ++ "_" ++ String.mk (List.replicate (maxStrLength d.usedNames + 1) '1'))
            :: d.usedNames, d.counter + 1⟩)

theorem newName_fresh (d : NameDispenser) (hint : YulString) :
    (d.newName hint).1 ∉ d.usedNames := by
  unfold NameDispenser.newName
  split
  · next h => exact h.2
  · next =>
      split
      · next i hfind =>
          have := List.find?_some hfind
          simpa using of_decide_eq_true this
      · next =>
          intro hmem
          have hle := le_maxStrLength hmem
          have hpad : (String.mk (List.replicate (maxStrLength d.usedNames + 1) '1')).length
              = maxStrLength d.usedNames + 1 := by
            simp [String.length]
          have hu : ("_" : String).length = 1 := rfl
          rw [String.length_append, String.length_append, hpad, hu] at hle
          omega

theorem newName_usedNames (d : NameDispenser) (hint : YulString) :
    (d.newName hint).2.usedNames = (d.newName hint).1 :: d.usedNames := by
  unfold NameDispenser.newName
  split
  · rfl
  · split <;> rfl

theorem newName_mem_usedNames (d : NameDispenser) (hint : YulString) :
    d.usedNames ⊆ (d.newName hint).2.usedNames := by
  rw [newName_usedNames]; exact List.subset_cons_self _ _

mutual
/-- Modelled from the spec: the Reference Counter (§4.2,
`ReferencesCounter` of `NameCollector.h`, outside this repository slice).
It lists every occurrence of a Symbol used as an identifier or as a call
target anywhere in a subtree, nested function bodies included; declaration
and binding sites (`VariableDeclaration` variables, function names,
parameter and return-variable lists) are not collected.  Assignment
targets are `Identifier` occurrences, not binding sites, and are
collected.  `countReferences` membership is occurrence-count positivity. -/
def referencesExpr : Expression → List YulString
  | .ident n => [n]
  | .lit _ _ => []
  | .call f args => f :: referencesExprs args

def referencesExprs : List Expression → List YulString
  | [] => []
  | e :: es => referencesExpr e ++ referencesExprs es
end

mutual
def referencesStmt : Statement → List YulString
  | .exprStmt e => referencesExpr e
  | .assign ns v => ns ++ referencesExpr v
  | .varDecl _ v => (v.map referencesExpr).getD []
  | .funcDef _ _ _ body => referencesStmts body
  | .ifStmt c body => referencesExpr c ++ referencesStmts body
  | .forLoop pre c post body =>
      referencesStmts pre ++ referencesExpr c ++ referencesStmts post ++
        referencesStmts body
  | .blockStmt stmts => referencesStmts stmts
  | .breakStmt => []
  | .continueStmt => []
  | .leaveStmt => []

def referencesStmts : List Statement → List YulString
  | [] => []
  | s :: rest => referencesStmt s ++ referencesStmts rest
end

/-- Name translation by an old→new mapping: identity off the domain. -/
def trName (tr : List (YulString × YulString)) (n : YulString) : YulString :=
  (tr.lookup n).getD n

mutual
/-- Modelled from the spec: the Global Renamer's substitution (§4.3,
`NameDisplacer` of `NameDisplacer.h`, outside this repository slice).
Every occurrence of a mapped Symbol — a definition's own name, a call
target, an identifier reference — anywhere in the subtree, nested function
definitions included, is replaced through the mapping. -/
def substExpr (tr : List (YulString × YulString)) : Expression → Expression
  | .ident n => .ident (trName tr n)
  | .lit k v => .lit k v
  | .call f args => .call (trName tr f) (substExprs tr args)

def substExprs (tr : List (YulString × YulString)) :
    List Expression → List Expression
  | [] => []
  | e :: es => substExpr tr e :: substExprs tr es
end

mutual
def substStmt (tr : List (YulString × YulString)) : Statement → Statement
  | .exprStmt e => .exprStmt (substExpr tr e)
  | .assign ns v => .assign (ns.map (trName tr)) (substExpr tr v)
  | .varDecl vs v => .varDecl vs (v.map (substExpr tr))
  | .funcDef n ps rs body => .funcDef (trName tr n) ps rs (substStmts tr body)
  | .ifStmt c body => .ifStmt (substExpr tr c) (substStmts tr body)
  | .forLoop pre c post body =>
      .forLoop (substStmts tr pre) (substExpr tr c) (substStmts tr post)
        (substStmts tr body)
  | .blockStmt stmts => .blockStmt (substStmts tr stmts)
  | .breakStmt => .breakStmt
  | .continueStmt => .continueStmt
  | .leaveStmt => .leaveStmt

def substStmts (tr : List (YulString × YulString)) :
    List Statement → List Statement
  | [] => []
  | s :: rest => substStmt tr s :: substStmts tr rest
end

theorem substStmts_eq_map (tr : List (YulString × YulString)) (l : List Statement) :
    substStmts tr l = l.map (substStmt tr) := by
  induction l with
  | nil => rfl
  | cons s rest ih => simp [substStmts, ih]

/-- Modelled from the spec: one fresh name per Symbol to free, dispensed in
order (the `NameDisplacer` translation map; `std::set<YulString>` iterates
in interning order, which for the pruner's candidates is their top-level
appearance order). -/
def mkTranslations (disp : NameDispenser) :
    List YulString → List (YulString × YulString) × NameDispenser
  | [] => ([], disp)
  | n :: ns =>
      let (n', d1) := disp.newName n
      let (tr, d2) := mkTranslations d1 ns
      ((n, n') :: tr, d2)

/-- The parameters of a function kept by the pruner: those whose name is
referenced in the body (`FindFunctionsWithUnusedParameters::operator()`,
`reducedParameters`), in their original relative order. -/
def reducedParams (ps : List TypedName) (body : Block) : List TypedName :=
  ps.filter (fun p => p.name ∈ referencesStmts body)

/-- `FindFunctionsWithUnusedParameters` applied to every `FunctionDefinition`
directly at the top level of the block (`UnusedFunctionArgumentPruner::run`,
first loop): the prunable function names with their reduced parameter
lists.  The C++ records them in a `std::map`/`std::set` keyed by `YulString`
(interning-order keys); here they are kept in top-level appearance order,
which coincides for a freshly interned tree. -/
def findUnused (stmts : Block) : List (YulString × List TypedName) :=
  stmts.filterMap fun s =>
    match s with
    | .funcDef n ps _ body =>
        if (reducedParams ps body).length < ps.length then
          some (n, reducedParams ps body)
        else none
    | _ => none

/-- `AddPrunedFunction::addFunction` seen from `iterateReplacing`: a
top-level `FunctionDefinition` whose (post-rename) name is in the inverse
translation map is replaced by the pair [new trimmed definition under the
original name with the reduced parameters, original return variables and
the transferred body; the old definition with its body replaced by the
single `Assignment` of a call to the original name].  All other statements
are kept as they are. -/
def expandOne (pruned : List (YulString × List TypedName))
    (tr : List (YulString × YulString)) (s : Statement) : List Statement :=
  match s with
  | .funcDef n ps rs body =>
      match (tr.map Prod.swap).lookup n with
      | some orig =>
          [.funcDef orig ((pruned.lookup orig).getD []) rs body,
           .funcDef n ps rs
             [.assign (rs.map TypedName.name)
               (.call orig (((pruned.lookup orig).getD []).map
                 fun p => Expression.ident p.name))]]
      | none => [s]
  | _ => [s]

/-- The translation map the pruner's rename step produces for a block. -/
def prunerTr (disp : NameDispenser) (stmts : Block) :
    List (YulString × YulString) :=
  (mkTranslations disp ((findUnused stmts).map Prod.fst)).1

/-- `UnusedFunctionArgumentPruner::run` — discovery over the top-level
statements, early exit when nothing is prunable, otherwise the global
rename of the prunable function names (through the context's dispenser)
followed by the top-level split.  The block is returned instead of being
mutated in place; the dispenser travels with it. -/
def UnusedFunctionArgumentPruner.run (disp : NameDispenser) (stmts : Block) :
    Block × NameDispenser :=
  let found := findUnused stmts
  if found.isEmpty then (stmts, disp)
  else
    let (tr, d') := mkTranslations disp (found.map Prod.fst)
    ((substStmts tr stmts).flatMap (expandOne found tr), d')

/-- Names of the `FunctionDefinition`s directly at the top level. -/
def topFunNames (stmts : Block) : List YulString :=
  stmts.filterMap fun s =>
    match s with
    | .funcDef n _ _ _ => some n
    | _ => none

/-- A function's slot map entry: variable Symbol → memory slot index
(`map<YulString, uint64_t>`). -/
abbrev SlotMap := List (YulString × Nat)

/-- The whole slot map: function Symbol → its entry
(`map<YulString, map<YulString, uint64_t>>`). -/
abbrev FunctionSlotMaps := List (YulString × SlotMap)

/-- Modelled from the spec: the target-dialect descriptor obtained from the
context (§6; `EVMDialect` lives outside this repository slice).  The mover
checks that the dialect is an `EVMDialect` (`dynamic_cast`) that provides
object access; per the spec this conjunction is the descriptor's report of
direct-memory-addressing support. -/
structure Dialect where
  isEVMDialect : Bool
  providesObjectAccess : Bool

/-- Modelled from the spec: whether the descriptor reports support for
direct memory addressing. -/
def Dialect.supportsDirectMemoryAddressing (d : Dialect) : Bool :=
  d.isEVMDialect && d.providesObjectAccess

/-- `OptimiserStepContext`: the dialect descriptor and the shared dispenser. -/
structure OptimiserStepContext where
  dialect : Dialect
  dispenser : NameDispenser

/-- Modelled from the spec: `util::toCompactHexWithPrefix` (outside this
repository slice) — the canonical hexadecimal literal rendering of an
address, `0x` followed by minimal lowercase hex digits, as in the spec's
examples `0x0` and `0x20` (§4.5, §8). -/
def toCompactHex (n : Nat) : String :=
  "0x" ++ String.mk (Nat.toDigits 16 n)

/-- `appendMemoryStore`: the `mstore` call statement written for an
escalated target — an `ExpressionStatement` whose expression is
`mstore(<position literal>, <value>)`. -/
def mstoreStmt (mpos : YulString) (value : Expression) : Statement :=
  .exprStmt (.call "mstore" [.lit .number mpos, value])

/-- `StackToMemoryMover::getMemoryOffset`: the rendered address
`reservedMemory + 32 * slot` of a variable in the active entry, in `u256`
arithmetic (the C++ `.at` lookup cannot miss at its call sites; `getD 0`
stands in for it). -/
def getMemoryOffset (rm : Nat) (m : SlotMap) (v : YulString) : YulString :=
  toCompactHex ((rm + 32 * ((m.lookup v).getD 0)) % 2 ^ 256)

/-- The loop of `rewriteAssignmentOrVariableDeclaration` over the targets of
a multi-target statement: dispenses one temporary per target in order and
accumulates, in iteration order, the temporary `TypedName`s (empty type),
the memory stores for targets in the active entry and the rebindings for
the others (`Assignment` rebind when the original statement was an
`Assignment` — `isDecl = false` —, fresh `VariableDeclaration` of the moved
original `TypedName` otherwise). -/
def rewriteLoop (rm : Nat) (m : SlotMap) (isDecl : Bool) (disp : NameDispenser) :
    List TypedName →
      List TypedName × List Statement × List Statement × NameDispenser
  | [] => ([], [], [], disp)
  | v :: vs =>
      let (tempName, d1) := disp.newName v.name
      let (temps, mems, rebinds, d2) := rewriteLoop rm m isDecl d1 vs
      if (m.lookup v.name).isSome then
        (⟨tempName, ""⟩ :: temps,
         mstoreStmt (getMemoryOffset rm m v.name) (.ident tempName) :: mems,
         rebinds, d2)
      else
        (⟨tempName, ""⟩ :: temps, mems,
         (if isDecl then Statement.varDecl [v] (some (.ident tempName))
          else Statement.assign [v.name] (.ident tempName)) :: rebinds, d2)

/-- `rewriteAssignmentOrVariableDeclaration` (the generic lambda of
`StackToMemoryMover::operator()(Block&)`), called with the already
read-rewritten value: a single target becomes one memory store (of the
literal zero when there is no initializer); several targets become the
temporary declaration bound to the value, then the accumulated memory
stores reversed, then the accumulated rebindings reversed.  `Assignment`
targets (bare `Identifier`s) are carried as `TypedName`s with empty type;
only their names are ever used on that path. -/
def rewriteAVD (rm : Nat) (m : SlotMap) (isDecl : Bool) (disp : NameDispenser)
    (vars : List TypedName) (value : Option Expression) :
    List Statement × NameDispenser :=
  if vars.length = 1 then
    ([mstoreStmt (getMemoryOffset rm m (vars.headD default).name)
        (value.getD (.lit .number "0"))], disp)
  else
    let (temps, mems, rebinds, d') := rewriteLoop rm m isDecl disp vars
    (Statement.varDecl temps value :: (mems.reverse ++ rebinds.reverse), d')

mutual
/-- `StackToMemoryMover::visit(Expression&)`: an `Identifier` naming a
Symbol of the active entry is replaced in place by
`mload(<its slot address>)` without further descent; every other expression
recurses into its subexpressions through the modelled `ASTModifier`
dispatch (spec §4.5 read rewriting; `ASTWalker.h` is outside this
repository slice).  A call's function name is an `Identifier` visited
directly, not through `visit(Expression&)`, so it is never rewritten. -/
def mExpr (rm : Nat) (m? : Option SlotMap) : Expression → Expression
  | .ident n =>
      match m? with
      | some m =>
          match m.lookup n with
          | some _ => .call "mload" [.lit .number (getMemoryOffset rm m n)]
          | none => .ident n
      | none => .ident n
  | .lit k v => .lit k v
  | .call f args => .call f (mExprs rm m? args)

def mExprs (rm : Nat) (m? : Option SlotMap) : List Expression → List Expression
  | [] => []
  | e :: es => mExpr rm m? e :: mExprs rm m? es
end

/-- The context the mover activates on entering a `FunctionDefinition`
(`StackToMemoryMover::operator()(FunctionDefinition&)`): the function's
slot map entry, unless absent or some own parameter or return variable is a
key of that entry (declared limitation), in which case no context. -/
def activeEntry (slots : FunctionSlotMaps) (n : YulString)
    (ps rs : List TypedName) : Option SlotMap :=
  match slots.lookup n with
  | some entry =>
      if (ps ++ rs).any (fun p => (entry.lookup p.name).isSome) then none
      else some entry
  | none => none

mutual
/-- The modelled `ASTModifier` statement dispatch with the mover's three
overrides (`visit(Expression&)`, `operator()(FunctionDefinition&)`,
`operator()(Block&)`): used for every statement the block handler does not
replace.  Assignment targets are `Identifier`s visited directly (a no-op),
not through `visit(Expression&)`.  Entering a function definition computes
the new active entry and processes the body under it; the caller's context
is untouched.  The dispenser threads through in traversal order. -/
def mStmt (rm : Nat) (slots : FunctionSlotMaps) (m? : Option SlotMap)
    (disp : NameDispenser) : Statement → Statement × NameDispenser
  | .exprStmt e => (.exprStmt (mExpr rm m? e), disp)
  | .assign ns v => (.assign ns (mExpr rm m? v), disp)
  | .varDecl vs v => (.varDecl vs (v.map (mExpr rm m?)), disp)
  | .funcDef n ps rs body =>
      let (body', d') := mStmts rm slots (activeEntry slots n ps rs) disp body
      (.funcDef n ps rs body', d')
  | .ifStmt c body =>
      let (body', d') := mStmts rm slots m? disp body
      (.ifStmt (mExpr rm m? c) body', d')
  | .forLoop pre c post body =>
      let (pre', d1) := mStmts rm slots m? disp pre
      let (body', d2) := mStmts rm slots m? d1 body
      let (post', d3) := mStmts rm slots m? d2 post
      (.forLoop pre' (mExpr rm m? c) post' body', d3)
  | .blockStmt stmts =>
      let (stmts', d') := mStmts rm slots m? disp stmts
      (.blockStmt stmts', d')
  | .breakStmt => (.breakStmt, disp)
  | .continueStmt => (.continueStmt, disp)
  | .leaveStmt => (.leaveStmt, disp)

/-- `StackToMemoryMover::operator()(Block&)`: with no active entry the
plain dispatch runs over every statement; with an active entry,
`iterateReplacing` intercepts `Assignment`s and `VariableDeclaration`s that
have a target in the entry — their value is read-rewritten first, then the
statement is replaced by `rewriteAssignmentOrVariableDeclaration`'s
statements — and every other statement takes the plain dispatch. -/
def mStmts (rm : Nat) (slots : FunctionSlotMaps) (m? : Option SlotMap)
    (disp : NameDispenser) : List Statement → List Statement × NameDispenser
  | [] => ([], disp)
  | s :: rest =>
      match m?, s with
      | some m, .assign ns v =>
          if ns.any (fun n => (m.lookup n).isSome) then
            let (out, d1) := rewriteAVD rm m false disp
              (ns.map fun n => (⟨n, ""⟩ : TypedName))
              (some (mExpr rm (some m) v))
            let (rest', d2) := mStmts rm slots (some m) d1 rest
            (out ++ rest', d2)
          else
            let (s', d1) := mStmt rm slots (some m) disp s
            let (rest', d2) := mStmts rm slots (some m) d1 rest
            (s' :: rest', d2)
      | some m, .varDecl vs v =>
          if vs.any (fun tv => (m.lookup tv.name).isSome) then
            let (out, d1) := rewriteAVD rm m true disp vs
              (v.map (mExpr rm (some m)))
            let (rest', d2) := mStmts rm slots (some m) d1 rest
            (out ++ rest', d2)
          else
            let (s', d1) := mStmt rm slots (some m) disp s
            let (rest', d2) := mStmts rm slots (some m) d1 rest
            (s' :: rest', d2)
      | _, _ =>
          let (s', d1) := mStmt rm slots m? disp s
          let (rest', d2) := mStmts rm slots m? d1 rest
          (s' :: rest', d2)
end

/-- `StackToMemoryMover`: reserved base address (a `u256`) and the slot
map; the dispenser comes from the context at each use. -/
structure StackToMemoryMover where
  reservedMemory : Nat
  memorySlots : FunctionSlotMaps

/-- The `StackToMemoryMover` constructor: the fatal `yulAssert` on a
dialect that is not an `EVMDialect` providing object access is modelled as
`Except.error` (non-recoverable abort); otherwise the mover is built. -/
def StackToMemoryMover.make (ctx : OptimiserStepContext) (rm : Nat)
    (slots : FunctionSlotMaps) : Except String StackToMemoryMover :=
  if ctx.dialect.isEVMDialect && ctx.dialect.providesObjectAccess then
    .ok ⟨rm, slots⟩
  else
    .error "StackToMemoryMover can only be run on objects using the EVMDialect with object access."

/-- Applying the mover to a root block: `m_currentFunctionMemorySlots`
starts as `nullptr`, i.e. no active context. -/
def StackToMemoryMover.run (mv : StackToMemoryMover) (disp : NameDispenser)
    (b : Block) : Block × NameDispenser :=
  mStmts mv.reservedMemory mv.memorySlots none disp b

theorem lookup_eq_some_of_mem {α β : Type} [BEq α] [LawfulBEq α]
    {l : List (α × β)} {k : α} {v : β}
    (hnd : (l.map Prod.fst).Nodup) (hmem : (k, v) ∈ l) :
    l.lookup k = some v := by
  induction l with
  | nil => cases hmem
  | cons p rest ih =>
      obtain ⟨k0, v0⟩ := p
      rcases List.mem_cons.mp hmem with heq | hmem'
      · obtain ⟨rfl, rfl⟩ := Prod.mk.injEq .. ▸ heq
        simp [List.lookup]
      · have hk : k ≠ k0 := by
          rintro rfl
          exact (List.nodup_cons.mp hnd).1
            (List.mem_map.mpr ⟨(k, v), hmem', rfl⟩)
        simp only [List.lookup, beq_eq_false_iff_ne.mpr hk]
        exact ih (List.nodup_cons.mp hnd).2 hmem'

theorem mkTranslations_fst (names : List YulString) : ∀ disp : NameDispenser,
    ((mkTranslations disp names).1).map Prod.fst = names := by
  induction names with
  | nil => intro disp; rfl
  | cons n ns ih =>
      intro disp
      simp only [mkTranslations]
      simpa using ih (disp.newName n).2

theorem mkTranslations_sub (names : List YulString) : ∀ disp : NameDispenser,
    disp.usedNames ⊆ (mkTranslations disp names).2.usedNames := by
  induction names with
  | nil => intro disp; exact fun _ h => h
  | cons n ns ih =>
      intro disp
      simp only [mkTranslations]
      exact fun x hx => ih (disp.newName n).2 (newName_mem_usedNames disp n hx)

theorem mkTranslations_vals (names : List YulString) : ∀ disp : NameDispenser,
    (∀ p ∈ (mkTranslations disp names).1,
        p.2 ∉ disp.usedNames ∧ p.2 ∈ (mkTranslations disp names).2.usedNames)
      ∧ ((mkTranslations disp names).1.map Prod.snd).Nodup := by
  induction names with
  | nil => intro disp; exact ⟨fun p hp => absurd hp (List.not_mem_nil p), List.nodup_nil⟩
  | cons n ns ih =>
      intro disp
      obtain ⟨ihv, ihnd⟩ := ih (disp.newName n).2
      simp only [mkTranslations]
      constructor
      · intro p hp
        rcases List.mem_cons.mp hp with rfl | hp'
        · refine ⟨newName_fresh disp n, ?_⟩
          exact mkTranslations_sub ns (disp.newName n).2
            (by rw [newName_usedNames]; exact List.mem_cons_self _ _)
        · obtain ⟨hnot, hin⟩ := ihv p hp'
          refine ⟨fun hmem => hnot (newName_mem_usedNames disp n hmem), hin⟩
      · refine List.nodup_cons.mpr ⟨?_, ihnd⟩
        intro hmem
        obtain ⟨p, hp, hpe⟩ := List.mem_map.mp hmem
        exact (ihv p hp).1 (hpe ▸ (by rw [newName_usedNames]; exact List.mem_cons_self _ _))

theorem mkTranslations_lookup {names : List YulString} {n : YulString}
    (disp : NameDispenser) (hnd : names.Nodup) (hmem : n ∈ names) :
    ∃ fresh, (mkTranslations disp names).1.lookup n = some fresh ∧
      ((mkTranslations disp names).1.map Prod.swap).lookup fresh = some n ∧
      fresh ∉ disp.usedNames := by
  have hfst := mkTranslations_fst names disp
  obtain ⟨hvals, hvnd⟩ := mkTranslations_vals names disp
  have hkeysnd : ((mkTranslations disp names).1.map Prod.fst).Nodup := by
    rw [hfst]; exact hnd
  have : n ∈ (mkTranslations disp names).1.map Prod.fst := by
    rw [hfst]; exact hmem
  obtain ⟨p, hp, hpe⟩ := List.mem_map.mp this
  obtain ⟨k, fresh⟩ := p
  cases hpe
  refine ⟨fresh, lookup_eq_some_of_mem hkeysnd hp, ?_, (hvals _ hp).1⟩
  have hswapkeys : (((mkTranslations disp names).1.map Prod.swap).map Prod.fst).Nodup := by
    simpa [List.map_map, Function.comp] using hvnd
  exact lookup_eq_some_of_mem hswapkeys (List.mem_map.mpr ⟨(k, fresh), hp, rfl⟩)

theorem findUnused_sublist (stmts : Block) :
    List.Sublist ((findUnused stmts).map Prod.fst) (topFunNames stmts) := by
  induction stmts with
  | nil => exact List.Sublist.refl _
  | cons s rest ih =>
      cases s with
      | funcDef n ps rs body =>
          by_cases hlt : (reducedParams ps body).length < ps.length
          · simpa [findUnused, topFunNames, List.filterMap_cons, hlt]
              using ih.cons₂ n
          · simpa [findUnused, topFunNames, List.filterMap_cons, hlt]
              using ih.cons n
      | exprStmt e => simpa [findUnused, topFunNames] using ih
      | assign ns v => simpa [findUnused, topFunNames] using ih
      | varDecl vs v => simpa [findUnused, topFunNames] using ih
      | ifStmt c body => simpa [findUnused, topFunNames] using ih
      | forLoop pre c post body => simpa [findUnused, topFunNames] using ih
      | blockStmt l => simpa [findUnused, topFunNames] using ih
      | breakStmt => simpa [findUnused, topFunNames] using ih
      | continueStmt => simpa [findUnused, topFunNames] using ih
      | leaveStmt => simpa [findUnused, topFunNames] using ih

theorem run_pair (disp : NameDispenser) (stmts : Block) (n : YulString)
    (ps rs : List TypedName) (body : Block)
    (hnd : (topFunNames stmts).Nodup)
    (hmem : Statement.funcDef n ps rs body ∈ stmts)
    (hlt : (reducedParams ps body).length < ps.length) :
    ∃ pre post fresh,
      (UnusedFunctionArgumentPruner.run disp stmts).1 =
        pre ++ Statement.funcDef n (reducedParams ps body) rs
            (substStmts (prunerTr disp stmts) body) ::
          Statement.funcDef fresh ps rs
            [Statement.assign (rs.map TypedName.name)
              (Expression.call n ((reducedParams ps body).map
                fun p => Expression.ident p.name))] :: post ∧
      (prunerTr disp stmts).lookup n = some fresh ∧ fresh ∉ disp.usedNames := by
  have hfound : (n, reducedParams ps body) ∈ findUnused stmts :=
    List.mem_filterMap.mpr ⟨_, hmem, by simp [hlt]⟩
  have hkeysnd : ((findUnused stmts).map Prod.fst).Nodup :=
    hnd.sublist (findUnused_sublist stmts)
  have hnmem : n ∈ (findUnused stmts).map Prod.fst :=
    List.mem_map.mpr ⟨_, hfound, rfl⟩
  obtain ⟨fresh, hlook, hswap, hfresh⟩ := mkTranslations_lookup disp hkeysnd hnmem
  have hlook' : (prunerTr disp stmts).lookup n = some fresh := by
    simpa [prunerTr] using hlook
  have hswap' : ((prunerTr disp stmts).map Prod.swap).lookup fresh = some n := by
    simpa [prunerTr] using hswap
  have hpruned : (findUnused stmts).lookup n = some (reducedParams ps body) :=
    lookup_eq_some_of_mem hkeysnd hfound
  have hne : (findUnused stmts).isEmpty = false := by
    cases hfu : findUnused stmts with
    | nil => rw [hfu] at hfound; cases hfound
    | cons a l => rfl
  have hrun : (UnusedFunctionArgumentPruner.run disp stmts).1 =
      (substStmts (prunerTr disp stmts) stmts).flatMap
        (expandOne (findUnused stmts) (prunerTr disp stmts)) := by
    simp only [UnusedFunctionArgumentPruner.run, hne, Bool.false_eq_true,
      if_false, prunerTr]
  have hsubstfd : substStmt (prunerTr disp stmts) (Statement.funcDef n ps rs body) =
      Statement.funcDef fresh ps rs (substStmts (prunerTr disp stmts) body) := by
    simp [substStmt, trName, hlook']
  have hexp : expandOne (findUnused stmts) (prunerTr disp stmts)
      (Statement.funcDef fresh ps rs (substStmts (prunerTr disp stmts) body)) =
      [Statement.funcDef n (reducedParams ps body) rs
          (substStmts (prunerTr disp stmts) body),
        Statement.funcDef fresh ps rs
          [Statement.assign (rs.map TypedName.name)
            (Expression.call n ((reducedParams ps body).map
              fun p => Expression.ident p.name))]] := by
    simp [expandOne, hswap', hpruned]
  obtain ⟨s1, s2, hdec⟩ := List.append_of_mem hmem
  refine ⟨(substStmts (prunerTr disp stmts) s1).flatMap
      (expandOne (findUnused stmts) (prunerTr disp stmts)),
    (substStmts (prunerTr disp stmts) s2).flatMap
      (expandOne (findUnused stmts) (prunerTr disp stmts)),
    fresh, ?_, hlook', hfresh⟩
  rw [hrun]
  set T := prunerTr disp stmts with hT
  set F := findUnused stmts with hF
  rw [hdec, substStmts_eq_map, List.map_append, List.map_cons,
    List.flatMap_append, List.flatMap_cons, hsubstfd, hexp]
  simp [substStmts_eq_map]

theorem run_noop (disp : NameDispenser) (stmts : Block)
    (h : ∀ n ps rs body, Statement.funcDef n ps rs body ∈ stmts →
      ∀ p ∈ ps, p.name ∈ referencesStmts body) :
    UnusedFunctionArgumentPruner.run disp stmts = (stmts, disp) := by
  have hnil : findUnused stmts = [] := by
    rw [findUnused, List.filterMap_eq_nil_iff]
    intro s hs
    cases s with
    | funcDef n ps rs body =>
        have hall : reducedParams ps body = ps :=
          List.filter_eq_self.mpr fun p hp => by
            simpa using h n ps rs body hs p hp
        simp [hall]
    | exprStmt e => rfl
    | assign ns v => rfl
    | varDecl vs v => rfl
    | ifStmt c body => rfl
    | forLoop pre c post body => rfl
    | blockStmt l => rfl
    | breakStmt => rfl
    | continueStmt => rfl
    | leaveStmt => rfl
  simp [UnusedFunctionArgumentPruner.run, hnil]

mutual
/-- Truncation of a tree at the bodies of function definitions whose name
is a key of the slot map: what remains is exactly the code the mover can
reach with no active escalation context. -/
def stripStmt (slots : FunctionSlotMaps) : Statement → Statement
  | .funcDef n ps rs body =>
      if (slots.lookup n).isSome then .funcDef n ps rs []
      else .funcDef n ps rs (stripStmts slots body)
  | .ifStmt c body => .ifStmt c (stripStmts slots body)
  | .forLoop pre c post body =>
      .forLoop (stripStmts slots pre) c (stripStmts slots post)
        (stripStmts slots body)
  | .blockStmt l => .blockStmt (stripStmts slots l)
  | s => s

def stripStmts (slots : FunctionSlotMaps) : List Statement → List Statement
  | [] => []
  | s :: rest => stripStmt slots s :: stripStmts slots rest
end

mutual
theorem mExpr_none (rm : Nat) : ∀ e : Expression, mExpr rm none e = e
  | .ident n => rfl
  | .lit k v => rfl
  | .call f args => by rw [mExpr, mExprs_none rm args]

theorem mExprs_none (rm : Nat) : ∀ es : List Expression, mExprs rm none es = es
  | [] => rfl
  | e :: es => by rw [mExprs, mExpr_none rm e, mExprs_none rm es]
end

theorem mStmts_none_cons (rm : Nat) (slots : FunctionSlotMaps)
    (disp : NameDispenser) (s : Statement) (rest : List Statement) :
    mStmts rm slots none disp (s :: rest) =
      ((mStmt rm slots none disp s).1 ::
          (mStmts rm slots none (mStmt rm slots none disp s).2 rest).1,
        (mStmts rm slots none (mStmt rm slots none disp s).2 rest).2) := by
  cases s <;> simp [mStmts]

mutual
theorem strip_mStmt (rm : Nat) (slots : FunctionSlotMaps) :
    ∀ (s : Statement) (disp : NameDispenser),
      stripStmt slots (mStmt rm slots none disp s).1 = stripStmt slots s
  | .exprStmt e, disp => by simp [mStmt, mExpr_none]
  | .assign ns v, disp => by simp [mStmt, mExpr_none]
  | .varDecl vs v, disp => by cases v <;> simp [mStmt, mExpr_none]
  | .funcDef n ps rs body, disp => by
      by_cases hk : (slots.lookup n).isSome = true
      · rcases hb : mStmts rm slots (activeEntry slots n ps rs) disp body with ⟨body', d'⟩
        simp [mStmt, hb, stripStmt, hk]
      · have hnone : slots.lookup n = none :=
          Option.not_isSome_iff_eq_none.mp (by simpa using hk)
        have hae : activeEntry slots n ps rs = none := by
          simp [activeEntry, hnone]
        rcases hb : mStmts rm slots none disp body with ⟨body', d'⟩
        have hs := strip_mStmts rm slots body disp
        rw [hb] at hs
        simp [mStmt, hae, hb, stripStmt, hnone, hs]
  | .ifStmt c body, disp => by
      rcases hb : mStmts rm slots none disp body with ⟨body', d'⟩
      have hs := strip_mStmts rm slots body disp
      rw [hb] at hs
      simp [mStmt, hb, stripStmt, hs, mExpr_none]
  | .forLoop pre c post body, disp => by
      rcases h1 : mStmts rm slots none disp pre with ⟨pre', d1⟩
      rcases h2 : mStmts rm slots none d1 body with ⟨body', d2⟩
      rcases h3 : mStmts rm slots none d2 post with ⟨post', d3⟩
      have hs1 := strip_mStmts rm slots pre disp
      have hs2 := strip_mStmts rm slots body d1
      have hs3 := strip_mStmts rm slots post d2
      rw [h1] at hs1
      rw [h2] at hs2
      rw [h3] at hs3
      simp [mStmt, h1, h2, h3, stripStmt, hs1, hs2, hs3, mExpr_none]
  | .blockStmt l, disp => by
      rcases hb : mStmts rm slots none disp l with ⟨l', d'⟩
      have hs := strip_mStmts rm slots l disp
      rw [hb] at hs
      simp [mStmt, hb, stripStmt, hs]
  | .breakStmt, disp => rfl
  | .continueStmt, disp => rfl
  | .leaveStmt, disp => rfl

theorem strip_mStmts (rm : Nat) (slots : FunctionSlotMaps) :
    ∀ (l : List Statement) (disp : NameDispenser),
      stripStmts slots (mStmts rm slots none disp l).1 = stripStmts slots l
  | [], disp => by simp [mStmts, stripStmts]
  | s :: rest, disp => by
      rw [mStmts_none_cons]
      simp only [stripStmts]
      rw [strip_mStmt rm slots s disp,
        strip_mStmts rm slots rest (mStmt rm slots none disp s).2]
end

theorem filter_length_lt_of_exists {α : Type} (p : α → Bool) (l : List α)
    (h : ∃ x ∈ l, ¬ p x = true) : (l.filter p).length < l.length := by
  induction l with
  | nil => obtain ⟨x, hx, _⟩ := h; cases hx
  | cons a as ih =>
      by_cases hpa : p a = true
      · obtain ⟨x, hx, hnp⟩ := h
        rcases List.mem_cons.mp hx with rfl | hx'
        · exact absurd hpa hnp
        · have := ih ⟨x, hx', hnp⟩
          simpa [List.filter_cons, hpa] using Nat.succ_lt_succ this
      · have := List.length_filter_le p as
        simp only [List.filter_cons, if_neg hpa, Bool.false_eq_true]
        simpa [hpa] using Nat.lt_succ_of_le this

theorem mExprs_eq_map (rm : Nat) (m? : Option SlotMap) (es : List Expression) :
    mExprs rm m? es = es.map (mExpr rm m?) := by
  induction es with
  | nil => rfl
  | cons e es ih => simp [mExprs, ih]

/-- The temporaries the multi-target rewrite dispenses, one per target in
original order, together with the dispenser state after all of them. -/
def dispenseTemps (disp : NameDispenser) :
    List TypedName → List YulString × NameDispenser
  | [] => ([], disp)
  | v :: vs =>
      let (t, d1) := disp.newName v.name
      let (ts, d2) := dispenseTemps d1 vs
      (t :: ts, d2)

theorem rewriteLoop_eq (rm : Nat) (m : SlotMap) (isDecl : Bool) :
    ∀ (vars : List TypedName) (disp : NameDispenser),
      rewriteLoop rm m isDecl disp vars =
        ((dispenseTemps disp vars).1.map (fun t => (⟨t, ""⟩ : TypedName)),
         ((vars.zip (dispenseTemps disp vars).1).filter
             (fun p => (m.lookup p.1.name).isSome)).map
           (fun p => mstoreStmt (getMemoryOffset rm m p.1.name) (.ident p.2)),
         ((vars.zip (dispenseTemps disp vars).1).filter
             (fun p => !(m.lookup p.1.name).isSome)).map
           (fun p => if isDecl then Statement.varDecl [p.1] (some (.ident p.2))
              else Statement.assign [p.1.name] (.ident p.2)),
         (dispenseTemps disp vars).2) := by
  intro vars
  induction vars with
  | nil => intro disp; rfl
  | cons v vs ih =>
      intro disp
      rcases ht : disp.newName v.name with ⟨t, d1⟩
      have hih := ih d1
      rcases hl : m.lookup v.name with _ | slot
      · simp [rewriteLoop, dispenseTemps, ht, hih, hl]
      · simp [rewriteLoop, dispenseTemps, ht, hih, hl]

/-- **C1.**  For every `FunctionDefinition` directly at the top level of the
block with at least one parameter unreferenced in its body, after
`UnusedFunctionArgumentPruner::run` the block contains, immediately before
the renamed definition, a brand-new `FunctionDefinition` carrying the
function's original name, the reduced parameter list (used parameters only,
in their original relative order), the original return-variable list and
the original body — the body as transferred from the renamed definition,
i.e. with the global rename of the prunable function names applied to it —
and the renamed definition's body is replaced by exactly one `Assignment`
whose targets are the return-variable Symbols in order and whose value is a
`FunctionCall` to the original name passing exactly the Identifiers of the
reduced parameter list, in order.  Top-level function names are assumed
pairwise distinct (a scoping invariant of well-formed Yul). -/
theorem claim_C1 (disp : NameDispenser) (stmts : Block) (n : YulString)
    (ps rs : List TypedName) (body : Block)
    (hnd : (topFunNames stmts).Nodup)
    (hmem : Statement.funcDef n ps rs body ∈ stmts)
    (hunused : ∃ p ∈ ps, p.name ∉ referencesStmts body) :
    ∃ pre post fresh,
      (UnusedFunctionArgumentPruner.run disp stmts).1 =
        pre ++ Statement.funcDef n (reducedParams ps body) rs
            (substStmts (prunerTr disp stmts) body) ::
          Statement.funcDef fresh ps rs
            [Statement.assign (rs.map TypedName.name)
              (Expression.call n ((reducedParams ps body).map
                fun p => Expression.ident p.name))] :: post ∧
      (prunerTr disp stmts).lookup n = some fresh ∧ fresh ∉ disp.usedNames := by
  apply run_pair disp stmts n ps rs body hnd hmem
  apply filter_length_lt_of_exists
  obtain ⟨p, hp, hnp⟩ := hunused
  exact ⟨p, hp, by simpa using hnp⟩

theorem claim_C1_witness :
    ∃ pre post fresh,
      (UnusedFunctionArgumentPruner.run ⟨["f", "x", "y", "z"], 0⟩
          [Statement.funcDef "f" [⟨"x", ""⟩, ⟨"y", ""⟩] [⟨"z", ""⟩]
            [Statement.assign ["z"] (Expression.ident "x")]]).1 =
        pre ++ Statement.funcDef "f"
            (reducedParams [⟨"x", ""⟩, ⟨"y", ""⟩]
              [Statement.assign ["z"] (Expression.ident "x")]) [⟨"z", ""⟩]
            (substStmts (prunerTr ⟨["f", "x", "y", "z"], 0⟩
                [Statement.funcDef "f" [⟨"x", ""⟩, ⟨"y", ""⟩] [⟨"z", ""⟩]
                  [Statement.assign ["z"] (Expression.ident "x")]])
              [Statement.assign ["z"] (Expression.ident "x")]) ::
          Statement.funcDef fresh [⟨"x", ""⟩, ⟨"y", ""⟩] [⟨"z", ""⟩]
            [Statement.assign ([⟨"z", ""⟩].map TypedName.name)
              (Expression.call "f"
                ((reducedParams [⟨"x", ""⟩, ⟨"y", ""⟩]
                    [Statement.assign ["z"] (Expression.ident "x")]).map
                  fun p => Expression.ident p.name))] :: post ∧
      (prunerTr ⟨["f", "x", "y", "z"], 0⟩
          [Statement.funcDef "f" [⟨"x", ""⟩, ⟨"y", ""⟩] [⟨"z", ""⟩]
            [Statement.assign ["z"] (Expression.ident "x")]]).lookup "f" =
        some fresh ∧
      fresh ∉ (⟨["f", "x", "y", "z"], 0⟩ : NameDispenser).usedNames :=
  claim_C1 _ _ "f" _ _ _ (by decide) (List.mem_cons_self _ _) (by decide)

/-- **C8.**  Any block in which every `FunctionDefinition` directly at the
top level references each of its parameters in its body is left
structurally unchanged by `UnusedFunctionArgumentPruner::run` (the
discovery step finds nothing and the pass exits early), and running the
pass again on such an input is again a no-op. -/
theorem claim_C8 (disp disp2 : NameDispenser) (stmts : Block)
    (h : ∀ n ps rs body, Statement.funcDef n ps rs body ∈ stmts →
      ∀ p ∈ ps, p.name ∈ referencesStmts body) :
    UnusedFunctionArgumentPruner.run disp stmts = (stmts, disp) ∧
      UnusedFunctionArgumentPruner.run disp2
          (UnusedFunctionArgumentPruner.run disp stmts).1 =
        ((UnusedFunctionArgumentPruner.run disp stmts).1, disp2) := by
  have h1 := run_noop disp stmts h
  refine ⟨h1, ?_⟩
  have h2 : (UnusedFunctionArgumentPruner.run disp stmts).1 = stmts := by rw [h1]
  rw [h2]
  exact run_noop disp2 stmts h

theorem claim_C8_witness :
    UnusedFunctionArgumentPruner.run ⟨["g", "x"], 0⟩
        [Statement.funcDef "g" [⟨"x", ""⟩] []
          [Statement.exprStmt (Expression.ident "x")]] =
      ([Statement.funcDef "g" [⟨"x", ""⟩] []
          [Statement.exprStmt (Expression.ident "x")]], ⟨["g", "x"], 0⟩) ∧
      UnusedFunctionArgumentPruner.run ⟨["g", "x"], 7⟩
          (UnusedFunctionArgumentPruner.run ⟨["g", "x"], 0⟩
            [Statement.funcDef "g" [⟨"x", ""⟩] []
              [Statement.exprStmt (Expression.ident "x")]]).1 =
        ((UnusedFunctionArgumentPruner.run ⟨["g", "x"], 0⟩
            [Statement.funcDef "g" [⟨"x", ""⟩] []
              [Statement.exprStmt (Expression.ident "x")]]).1, ⟨["g", "x"], 7⟩) :=
  claim_C8 ⟨["g", "x"], 0⟩ ⟨["g", "x"], 7⟩ _ (by
    intro n ps rs body hmem p hp
    rw [List.mem_singleton] at hmem
    injection hmem with h1 h2 h3 h4
    subst h1
    subst h2
    subst h3
    subst h4
    rw [List.mem_singleton] at hp
    subst hp
    decide)

/-- **C9.**  A top-level function with at least one unused parameter and an
empty return-variable list still gets a wrapper whose body is a single
`Assignment` statement with an empty target list (whose value is the call
to the reduced-arity function under the original name), not an
`ExpressionStatement`. -/
theorem claim_C9 (disp : NameDispenser) (stmts : Block) (n : YulString)
    (ps : List TypedName) (body : Block)
    (hnd : (topFunNames stmts).Nodup)
    (hmem : Statement.funcDef n ps [] body ∈ stmts)
    (hunused : ∃ p ∈ ps, p.name ∉ referencesStmts body) :
    ∃ pre post fresh,
      (UnusedFunctionArgumentPruner.run disp stmts).1 =
        pre ++ Statement.funcDef n (reducedParams ps body) []
            (substStmts (prunerTr disp stmts) body) ::
          Statement.funcDef fresh ps []
            [Statement.assign []
              (Expression.call n ((reducedParams ps body).map
                fun p => Expression.ident p.name))] :: post := by
  have hlt : (reducedParams ps body).length < ps.length := by
    apply filter_length_lt_of_exists
    obtain ⟨p, hp, hnp⟩ := hunused
    exact ⟨p, hp, by simpa using hnp⟩
  obtain ⟨pre, post, fresh, heq, -, -⟩ :=
    run_pair disp stmts n ps [] body hnd hmem hlt
  exact ⟨pre, post, fresh, by simpa using heq⟩

theorem claim_C9_witness :
    ∃ pre post fresh,
      (UnusedFunctionArgumentPruner.run ⟨["p", "a"], 0⟩
          [Statement.funcDef "p" [⟨"a", ""⟩] []
            [Statement.exprStmt (Expression.lit .number "1")]]).1 =
        pre ++ Statement.funcDef "p"
            (reducedParams [⟨"a", ""⟩]
              [Statement.exprStmt (Expression.lit .number "1")]) []
            (substStmts (prunerTr ⟨["p", "a"], 0⟩
                [Statement.funcDef "p" [⟨"a", ""⟩] []
                  [Statement.exprStmt (Expression.lit .number "1")]])
              [Statement.exprStmt (Expression.lit .number "1")]) ::
          Statement.funcDef fresh [⟨"a", ""⟩] []
            [Statement.assign []
              (Expression.call "p"
                ((reducedParams [⟨"a", ""⟩]
                    [Statement.exprStmt (Expression.lit .number "1")]).map
                  fun p => Expression.ident p.name))] :: post :=
  claim_C9 _ _ "p" _ _ (by decide) (List.mem_cons_self _ _) (by decide)

/-- **C5 (counterexample).**  Scenario A as stated claims the output block
holds a wrapper under the *original* name with the *full* parameter list
whose body calls the freshly named definition:
`f(x, y) -> z { z := <fresh>(x) }`.  On the concrete scenario input the
pruner produces no such definition: the full-parameter wrapper is the one
under the fresh name and its body calls `f` — so the claim, as stated, is
false at this input. -/
theorem claim_C5_counterexample :
    ¬ ∃ fresh,
      Statement.funcDef "f" [⟨"x", ""⟩, ⟨"y", ""⟩] [⟨"z", ""⟩]
          [Statement.assign ["z"] (Expression.call fresh [Expression.ident "x"])] ∈
        (UnusedFunctionArgumentPruner.run ⟨["f", "x", "y", "z"], 0⟩
          [Statement.funcDef "f" [⟨"x", ""⟩, ⟨"y", ""⟩] [⟨"z", ""⟩]
            [Statement.assign ["z"] (Expression.ident "x")],
           Statement.exprStmt (Expression.call "f"
             [Expression.lit .number "1", Expression.lit .number "2"])]).1 := by
  rintro ⟨fresh, hmem⟩
  have hout : (UnusedFunctionArgumentPruner.run ⟨["f", "x", "y", "z"], 0⟩
      [Statement.funcDef "f" [⟨"x", ""⟩, ⟨"y", ""⟩] [⟨"z", ""⟩]
        [Statement.assign ["z"] (Expression.ident "x")],
       Statement.exprStmt (Expression.call "f"
         [Expression.lit .number "1", Expression.lit .number "2"])]).1 =
      [Statement.funcDef "f" [⟨"x", ""⟩] [⟨"z", ""⟩]
        [Statement.assign ["z"] (Expression.ident "x")],
       Statement.funcDef "f_1" [⟨"x", ""⟩, ⟨"y", ""⟩] [⟨"z", ""⟩]
        [Statement.assign ["z"] (Expression.call "f" [Expression.ident "x"])],
       Statement.exprStmt (Expression.call "f_1"
         [Expression.lit .number "1", Expression.lit .number "2"])] := rfl
  rw [hout] at hmem
  simp [List.mem_cons] at hmem

/-- **C5 (amended).**  Pruning the block containing
`f(x, y) -> z { z := x }` (with `y` unused) and a two-argument call site
yields a trimmed definition under the *original* name,
`f(x) -> z { z := x }`, immediately followed by the wrapper under the
*fresh* name, `f_1(x, y) -> z { z := f(x) }`; the pre-existing
two-argument call site now targets the wrapper's fresh name and still
passes two arguments. -/
theorem claim_C5 :
    UnusedFunctionArgumentPruner.run ⟨["f", "x", "y", "z"], 0⟩
        [Statement.funcDef "f" [⟨"x", ""⟩, ⟨"y", ""⟩] [⟨"z", ""⟩]
          [Statement.assign ["z"] (Expression.ident "x")],
         Statement.exprStmt (Expression.call "f"
           [Expression.lit .number "1", Expression.lit .number "2"])] =
      ([Statement.funcDef "f" [⟨"x", ""⟩] [⟨"z", ""⟩]
          [Statement.assign ["z"] (Expression.ident "x")],
        Statement.funcDef "f_1" [⟨"x", ""⟩, ⟨"y", ""⟩] [⟨"z", ""⟩]
          [Statement.assign ["z"] (Expression.call "f" [Expression.ident "x"])],
        Statement.exprStmt (Expression.call "f_1"
          [Expression.lit .number "1", Expression.lit .number "2"])],
       ⟨["f_1", "f", "x", "y", "z"], 1⟩) := rfl

/-- **C3.**  Under an active escalation context, an `Identifier` naming a
Symbol of the active entry is replaced in place by a memory load of
`reserved_base + 32 × slot` (in `u256` arithmetic) rendered as a canonical
hexadecimal literal, and the replacement is terminal (the equality exhibits
the produced expression whole, with no further rewriting inside it); a
literal keeps its shape; a call keeps its function name and shape with only
its subexpressions rewritten; an `Identifier` absent from the entry is left
unchanged. -/
theorem claim_C3 (rm : Nat) (m : SlotMap) :
    (∀ n slot, m.lookup n = some slot →
        mExpr rm (some m) (Expression.ident n) =
          Expression.call "mload"
            [Expression.lit .number (toCompactHex ((rm + 32 * slot) % 2 ^ 256))])
    ∧ (∀ n, m.lookup n = none →
        mExpr rm (some m) (Expression.ident n) = Expression.ident n)
    ∧ (∀ (m? : Option SlotMap) k v,
        mExpr rm m? (Expression.lit k v) = Expression.lit k v)
    ∧ (∀ (m? : Option SlotMap) f args,
        mExpr rm m? (Expression.call f args) =
          Expression.call f (args.map (mExpr rm m?))) := by
  refine ⟨?_, ?_, ?_, ?_⟩
  · intro n slot h
    simp [mExpr, h, getMemoryOffset]
  · intro n h
    simp [mExpr, h]
  · intro m? k v
    cases m? <;> rfl
  · intro m? f args
    simp [mExpr, mExprs_eq_map]

theorem claim_C3_witness :
    (mExpr 3 (some [("v", 2)]) (Expression.ident "v") =
      Expression.call "mload"
        [Expression.lit .number (toCompactHex ((3 + 32 * 2) % 2 ^ 256))])
    ∧ (mExpr 3 (some [("v", 2)]) (Expression.ident "w") = Expression.ident "w") :=
  ⟨(claim_C3 3 [("v", 2)]).1 "v" 2 rfl, (claim_C3 3 [("v", 2)]).2.1 "w" rfl⟩

/-- **C4.**  Under an active escalation context, an `Assignment` or
`VariableDeclaration` with exactly one target whose Symbol is in the entry
becomes exactly one memory store of the read-rewritten value at the
target's slot address; with no initializer the stored value is the literal
zero.  In particular, with `reserved_base = 0` and `v` mapped to slot 0,
`v := 5` becomes `mstore(0x0, 5)` and a later `x := v` becomes
`x := mload(0x0)`. -/
theorem claim_C4 (rm : Nat) (slots : FunctionSlotMaps) (m : SlotMap)
    (disp : NameDispenser) :
    (∀ x slot v rest, m.lookup x = some slot →
        mStmts rm slots (some m) disp (Statement.assign [x] v :: rest) =
          (mstoreStmt (toCompactHex ((rm + 32 * slot) % 2 ^ 256))
              (mExpr rm (some m) v) ::
            (mStmts rm slots (some m) disp rest).1,
           (mStmts rm slots (some m) disp rest).2))
    ∧ (∀ tv slot rest, m.lookup (TypedName.name tv) = some slot →
        mStmts rm slots (some m) disp
            (Statement.varDecl [tv] none :: rest) =
          (mstoreStmt (toCompactHex ((rm + 32 * slot) % 2 ^ 256))
              (Expression.lit .number "0") ::
            (mStmts rm slots (some m) disp rest).1,
           (mStmts rm slots (some m) disp rest).2))
    ∧ (∀ (slots' : FunctionSlotMaps) (d : NameDispenser),
        mStmts 0 slots' (some [("v", 0)]) d
            [Statement.assign ["v"] (Expression.lit .number "5")] =
          ([mstoreStmt "0x0" (Expression.lit .number "5")], d))
    ∧ (∀ (slots' : FunctionSlotMaps) (d : NameDispenser),
        mStmts 0 slots' (some [("v", 0)]) d
            [Statement.assign ["x"] (Expression.ident "v")] =
          ([Statement.assign ["x"]
              (Expression.call "mload" [Expression.lit .number "0x0"])], d)) := by
  refine ⟨?_, ?_, ?_, ?_⟩
  · intro x slot v rest h
    rcases hr : mStmts rm slots (some m) disp rest with ⟨rest', d2⟩
    simp [mStmts, rewriteAVD, getMemoryOffset, h, hr]
  · intro tv slot rest h
    rcases hr : mStmts rm slots (some m) disp rest with ⟨rest', d2⟩
    simp [mStmts, rewriteAVD, getMemoryOffset, h, hr]
  · intro slots' d
    rfl
  · intro slots' d
    rfl

theorem claim_C4_witness :
    mStmts 0 [] (some [("v", 0)]) ⟨[], 0⟩
        (Statement.assign ["v"] (Expression.lit .number "5") :: []) =
      (mstoreStmt (toCompactHex ((0 + 32 * 0) % 2 ^ 256))
          (mExpr 0 (some [("v", 0)]) (Expression.lit .number "5")) ::
        (mStmts 0 [] (some [("v", 0)]) ⟨[], 0⟩ ([] : Block)).1,
       (mStmts 0 [] (some [("v", 0)]) ⟨[], 0⟩ ([] : Block)).2) :=
  (claim_C4 0 [] [("v", 0)] ⟨[], 0⟩).1 "v" 0 (Expression.lit .number "5") [] rfl

/-- **C10.**  Every statement not enclosed in a `FunctionDefinition` whose
name is a key of the slot map — in particular all code of the outermost
block — keeps its shape and all its expressions under the mover, the only
processing being the recursion into nested `FunctionDefinition`s: modulo
truncation at bodies of slot-keyed function definitions (`stripStmts`), the
mover's output equals its input. -/
theorem claim_C10 (mv : StackToMemoryMover) (disp : NameDispenser) (b : Block) :
    stripStmts mv.memorySlots (mv.run disp b).1 = stripStmts mv.memorySlots b :=
  strip_mStmts mv.reservedMemory mv.memorySlots b disp

/-- **C6.**  On entering a `FunctionDefinition` whose slot-map entry
contains one of its own parameter or return-variable Symbols, the mover
processes the entire body with no active escalation context — so nothing
in that body is rewritten except, recursively, the bodies of slot-keyed
definitions nested inside it —, this is not an error (processing is total
and continues with the remaining statements), and the enclosing context
`m?`, whatever it was, is what the following statements are processed
under. -/
theorem claim_C6 (rm : Nat) (slots : FunctionSlotMaps) (m? : Option SlotMap)
    (disp : NameDispenser) (n : YulString) (ps rs : List TypedName)
    (body : Block) (entry : SlotMap) (rest : List Statement)
    (hlook : slots.lookup n = some entry)
    (hconf : ∃ p ∈ ps ++ rs, (entry.lookup (TypedName.name p)).isSome = true) :
    mStmts rm slots m? disp (Statement.funcDef n ps rs body :: rest) =
      (Statement.funcDef n ps rs (mStmts rm slots none disp body).1 ::
          (mStmts rm slots m? (mStmts rm slots none disp body).2 rest).1,
        (mStmts rm slots m? (mStmts rm slots none disp body).2 rest).2)
      ∧ stripStmts slots (mStmts rm slots none disp body).1 =
        stripStmts slots body := by
  have hany : (ps ++ rs).any (fun p => (entry.lookup p.name).isSome) = true := by
    obtain ⟨p, hp, hs⟩ := hconf
    exact List.any_eq_true.mpr ⟨p, hp, hs⟩
  have hae : activeEntry slots n ps rs = none := by
    simp [activeEntry, hlook, hany]
  refine ⟨?_, strip_mStmts rm slots body disp⟩
  rcases hb : mStmts rm slots none disp body with ⟨body', d'⟩
  rcases hr : mStmts rm slots m? d' rest with ⟨rest', d2⟩
  cases m? with
  | none => simp [mStmts, mStmt, hae, hb, hr]
  | some m => simp [mStmts, mStmt, hae, hb, hr]

theorem claim_C6_witness :
    mStmts 0 [("f", [("x", 0)])] none ⟨[], 0⟩
        (Statement.funcDef "f" [⟨"x", ""⟩] []
            [Statement.assign ["x"] (Expression.lit .number "1")] :: []) =
      (Statement.funcDef "f" [⟨"x", ""⟩] []
          (mStmts 0 [("f", [("x", 0)])] none ⟨[], 0⟩
            [Statement.assign ["x"] (Expression.lit .number "1")]).1 ::
          (mStmts 0 [("f", [("x", 0)])] none
            (mStmts 0 [("f", [("x", 0)])] none ⟨[], 0⟩
              [Statement.assign ["x"] (Expression.lit .number "1")]).2 []).1,
        (mStmts 0 [("f", [("x", 0)])] none
          (mStmts 0 [("f", [("x", 0)])] none ⟨[], 0⟩
            [Statement.assign ["x"] (Expression.lit .number "1")]).2 []).2)
      ∧ stripStmts [("f", [("x", 0)])]
          (mStmts 0 [("f", [("x", 0)])] none ⟨[], 0⟩
            [Statement.assign ["x"] (Expression.lit .number "1")]).1 =
        stripStmts [("f", [("x", 0)])]
          [Statement.assign ["x"] (Expression.lit .number "1")] :=
  claim_C6 0 [("f", [("x", 0)])] none ⟨[], 0⟩ "f" [⟨"x", ""⟩] []
    [Statement.assign ["x"] (Expression.lit .number "1")] [("x", 0)] []
    rfl ⟨⟨"x", ""⟩, by decide, rfl⟩

/-- **C7.**  Constructing the Stack-to-Memory Mover against a dialect
descriptor that does not report support for direct memory addressing (an
`EVMDialect` providing object access) hits the fatal, non-recoverable
`yulAssert`, modelled as the aborting `Except.error`; with a supporting
dialect, construction succeeds with the given reserved base and slot
map. -/
theorem claim_C7 (ctx : OptimiserStepContext) (rm : Nat)
    (slots : FunctionSlotMaps) :
    (ctx.dialect.supportsDirectMemoryAddressing = false →
      StackToMemoryMover.make ctx rm slots =
        Except.error "StackToMemoryMover can only be run on objects using the EVMDialect with object access.")
    ∧ (ctx.dialect.supportsDirectMemoryAddressing = true →
      StackToMemoryMover.make ctx rm slots = Except.ok ⟨rm, slots⟩) := by
  constructor
  · intro h
    have : (ctx.dialect.isEVMDialect && ctx.dialect.providesObjectAccess) = false := by
      simpa [Dialect.supportsDirectMemoryAddressing] using h
    simp [StackToMemoryMover.make, this]
  · intro h
    have : (ctx.dialect.isEVMDialect && ctx.dialect.providesObjectAccess) = true := by
      simpa [Dialect.supportsDirectMemoryAddressing] using h
    simp [StackToMemoryMover.make, this]

theorem claim_C7_witness :
    (StackToMemoryMover.make ⟨⟨false, true⟩, ⟨[], 0⟩⟩ 128 [] =
      Except.error "StackToMemoryMover can only be run on objects using the EVMDialect with object access.")
    ∧ (StackToMemoryMover.make ⟨⟨true, true⟩, ⟨[], 0⟩⟩ 128 [] =
      Except.ok ⟨128, []⟩) :=
  ⟨(claim_C7 ⟨⟨false, true⟩, ⟨[], 0⟩⟩ 128 []).1 rfl,
   (claim_C7 ⟨⟨true, true⟩, ⟨[], 0⟩⟩ 128 []).2 rfl⟩
theorem dispenseTemps_sub (vars : List TypedName) : ∀ disp : NameDispenser,
    disp.usedNames ⊆ (dispenseTemps disp vars).2.usedNames := by
  induction vars with
  | nil => intro disp; exact fun _ h => h
  | cons v vs ih =>
      intro disp
      simp only [dispenseTemps]
      exact fun x hx =>
        ih (disp.newName v.name).2 (newName_mem_usedNames disp v.name hx)

theorem dispenseTemps_spec (vars : List TypedName) : ∀ disp : NameDispenser,
    (dispenseTemps disp vars).1.length = vars.length
  ∧ (dispenseTemps disp vars).1.Nodup
  ∧ (∀ t ∈ (dispenseTemps disp vars).1, t ∉ disp.usedNames) := by
  induction vars with
  | nil =>
      intro disp
      exact ⟨rfl, List.nodup_nil, fun t ht => absurd ht (List.not_mem_nil t)⟩
  | cons v vs ih =>
      intro disp
      obtain ⟨ihlen, ihnd, ihmem⟩ := ih (disp.newName v.name).2
      have hself : (disp.newName v.name).1 ∈ (disp.newName v.name).2.usedNames := by
        rw [newName_usedNames]; exact List.mem_cons_self _ _
      refine ⟨by simp [dispenseTemps, ihlen], ?_, ?_⟩
      · refine List.nodup_cons.mpr ⟨fun hmem => ?_, ihnd⟩
        exact (ihmem _ hmem) hself
      · intro t ht
        rcases List.mem_cons.mp ht with rfl | ht'
        · exact newName_fresh disp v.name
        · exact fun hmem =>
            (ihmem t ht') (newName_mem_usedNames disp v.name hmem)

/-- Closed form of the multi-target decomposition's output: the temporary
declaration first, then the memory stores of the targets in the active
entry, then the rebindings of the remaining targets (each group in the
code's emission order), each temporary matching its target by position. -/
def multiDecomposition (rm : Nat) (m : SlotMap) (isDecl : Bool)
    (vars : List TypedName) (temps : List YulString)
    (value : Option Expression) : List Statement :=
  Statement.varDecl (temps.map fun t => ⟨t, ""⟩) value ::
    ((((vars.zip temps).filter
          (fun p => (m.lookup (TypedName.name p.1)).isSome)).map
        (fun p => mstoreStmt (getMemoryOffset rm m (TypedName.name p.1))
          (Expression.ident p.2))).reverse ++
      (((vars.zip temps).filter
          (fun p => (m.lookup (TypedName.name p.1)).isNone)).map
        (fun p => if isDecl then
            Statement.varDecl [p.1] (some (Expression.ident p.2))
          else Statement.assign [TypedName.name p.1]
            (Expression.ident p.2))).reverse)

/-- **C2.**  Under an active escalation context, an `Assignment` or
`VariableDeclaration` with two or more targets of which at least one is in
the entry is replaced by: first one `VariableDeclaration` binding freshly
dispensed temporaries — one per target in original order, pairwise distinct
and absent from the dispenser's used names — to the single (read-rewritten)
right-hand side, which therefore occurs exactly once in the output;
followed by a memory store of the matching temporary for each target in
the entry and by a rebinding to the matching temporary for each target not
in it (an `Assignment` when the statement was an `Assignment`, a new
`VariableDeclaration` when it was a `VariableDeclaration`); the temporary
declaration precedes all derived statements. -/
theorem claim_C2 (rm : Nat) (slots : FunctionSlotMaps) (m : SlotMap)
    (disp : NameDispenser) :
    (∀ ns v rest, 2 ≤ ns.length →
      ns.any (fun x => (m.lookup x).isSome) = true →
      mStmts rm slots (some m) disp (Statement.assign ns v :: rest) =
        (multiDecomposition rm m false (ns.map fun x => ⟨x, ""⟩)
            (dispenseTemps disp (ns.map fun x => ⟨x, ""⟩)).1
            (some (mExpr rm (some m) v)) ++
          (mStmts rm slots (some m)
            (dispenseTemps disp (ns.map fun x => ⟨x, ""⟩)).2 rest).1,
         (mStmts rm slots (some m)
           (dispenseTemps disp (ns.map fun x => ⟨x, ""⟩)).2 rest).2))
    ∧ (∀ vs v rest, 2 ≤ vs.length →
      vs.any (fun tv => (m.lookup (TypedName.name tv)).isSome) = true →
      mStmts rm slots (some m) disp (Statement.varDecl vs v :: rest) =
        (multiDecomposition rm m true vs (dispenseTemps disp vs).1
            (v.map (mExpr rm (some m))) ++
          (mStmts rm slots (some m) (dispenseTemps disp vs).2 rest).1,
         (mStmts rm slots (some m) (dispenseTemps disp vs).2 rest).2))
    ∧ (∀ vars : List TypedName,
        (dispenseTemps disp vars).1.length = vars.length
      ∧ (dispenseTemps disp vars).1.Nodup
      ∧ ∀ t ∈ (dispenseTemps disp vars).1, t ∉ disp.usedNames) := by
  refine ⟨?_, ?_, fun vars => dispenseTemps_spec vars disp⟩
  · intro ns v rest hlen hesc
    have hloop := rewriteLoop_eq rm m false (ns.map fun x => (⟨x, ""⟩ : TypedName)) disp
    have hne : ¬ (ns.length = 1) := by omega
    rcases hr : mStmts rm slots (some m)
        (dispenseTemps disp (ns.map fun x => (⟨x, ""⟩ : TypedName))).2 rest
      with ⟨rest', d2⟩
    simp [mStmts, hesc, rewriteAVD, hne, hloop, multiDecomposition, hr]
  · intro vs v rest hlen hesc
    have hloop := rewriteLoop_eq rm m true vs disp
    have hne : ¬ (vs.length = 1) := by omega
    rcases hr : mStmts rm slots (some m) (dispenseTemps disp vs).2 rest
      with ⟨rest', d2⟩
    simp [mStmts, hesc, rewriteAVD, hne, hloop, multiDecomposition, hr]

theorem claim_C2_witness :
    mStmts 0 [] (some [("b", 1)]) ⟨["a", "b", "g"], 0⟩
        (Statement.varDecl [⟨"a", ""⟩, ⟨"b", ""⟩]
          (some (Expression.call "g" [])) :: []) =
      (multiDecomposition 0 [("b", 1)] true [⟨"a", ""⟩, ⟨"b", ""⟩]
          (dispenseTemps ⟨["a", "b", "g"], 0⟩ [⟨"a", ""⟩, ⟨"b", ""⟩]).1
          ((some (Expression.call "g" [])).map
            (mExpr 0 (some [("b", 1)]))) ++
        (mStmts 0 [] (some [("b", 1)])
          (dispenseTemps ⟨["a", "b", "g"], 0⟩ [⟨"a", ""⟩, ⟨"b", ""⟩]).2
          ([] : Block)).1,
       (mStmts 0 [] (some [("b", 1)])
         (dispenseTemps ⟨["a", "b", "g"], 0⟩ [⟨"a", ""⟩, ⟨"b", ""⟩]).2
         ([] : Block)).2) :=
  (claim_C2 0 [] [("b", 1)] ⟨["a", "b", "g"], 0⟩).2.1
    [⟨"a", ""⟩, ⟨"b", ""⟩] (some (Expression.call "g" [])) []
    (by decide) (by decide)
